import Mathlib

/-!
Verification of the text-chunking and multi-pass summarization pipeline of the
`llm_demo_text_summarize` repository.

The Python sources are shallowly embedded here.  Strings are modelled as
`List Char`; Python `str.strip` / `" ".join` / `str.split` / regex splits are
translated char-by-char.  The Hugging Face tokenizer and summarization model are
opaque collaborators: a tokenizer is a pair of `encode`/`decode` functions
(`encode` is `Option`-valued, `none` modelling a raised exception), and a
summarizer invocation is an `Option`-valued function (`none` modelling a raised
exception or a malformed result shape).

Embedded functions (source file and symbol are given on each definition):
* `src/utils/summarize.py` : `_split_sentences`, `_chunk_by_tokens`
* `src/utils/enhance_summarize.py` : `_split_sentences`, `_chunk_text`
  (fallback branch), `_format_markdown`, `_validate_input`,
  `enhance_summarize_text` (chunk-summarize / reduce / format stages)
* `src/utils/chinese_summarize.py` : `_split_chinese_sentences`
* `src/utils/fast_summarize.py` : validation, parallel partial collection,
  second-pass reduction, `_process_chunk_parallel` outcome handling
* `src/utils/performance.py` : `optimize_text_chunking` (token-window slicing
  and the word-based fallback)
-/

/-- Strings are modelled as lists of characters. -/
abbrev Str := List Char

/-- Python whitespace test used by `str.strip`, `str.split` and the regex
class `\s` (restricted to the ASCII whitespace characters that matter here). -/
def isWS (c : Char) : Bool := c.isWhitespace

/-- The regex character class `[.!?]` from `_split_sentences`. -/
def isPunct (c : Char) : Bool := c == '.' || c == '!' || c == '?'

/-- The regex character class `[。！？]` from `_split_chinese_sentences`. -/
def isCJKPunct (c : Char) : Bool := c == '。' || c == '！' || c == '？'

/-- Python `str.strip()`: drop whitespace from both ends. -/
def stripL (l : Str) : Str :=
  ((l.dropWhile isWS).reverse.dropWhile isWS).reverse

/-- Python `sep.join(strs)` for a one-character separator. -/
def joinWith (sep : Char) : List Str → Str
  | [] => []
  | [s] => s
  | s :: rest => s ++ sep :: joinWith sep rest

/-- Python `" ".join(strs)`. -/
def joinSp : List Str → Str := joinWith ' '

/-- Python `"\n".join(strs)`. -/
def joinNL : List Str → Str := joinWith '\n'

/-- The word-accumulating loop behind Python `str.split()` (split on
whitespace runs, dropping empty pieces); the current word is accumulated in
reverse in `acc`. -/
def splitWSAux : Str → Str → List Str
  | [], acc => if acc.isEmpty then [] else [acc.reverse]
  | c :: rest, acc =>
    if isWS c then
      if acc.isEmpty then splitWSAux rest []
      else acc.reverse :: splitWSAux rest []
    else splitWSAux rest (c :: acc)

/-- Python `str.split()`. -/
def splitWS (l : Str) : List Str := splitWSAux l []

/-- Test whether the chunk accumulator (stored reversed) ends with `[.!?]`;
this is the lookbehind of the regex `(?<=[.!?])\s+`. -/
def accEndsPunct : Str → Bool
  | [] => false
  | c :: _ => isPunct c

/-- Body of the regex split `re.split(r"(?<=[.!?])\s+", text)`: scan the text,
cutting at each whitespace run that immediately follows `.`, `!` or `?`.  The
current piece is accumulated in reverse in `acc`; `skip` is true while the
remainder of a separator's whitespace run is being consumed (the regex `\s+`
is greedy). -/
def splitAux : Str → Str → Bool → List Str
  | [], acc, _ => [acc.reverse]
  | c :: rest, acc, skip =>
    if skip && isWS c then splitAux rest acc skip
    else if isWS c && accEndsPunct acc then
      acc.reverse :: splitAux rest [] true
    else splitAux rest (c :: acc) false

namespace Summarize

/-- `src/utils/summarize.py` `_split_sentences`: regex-split the stripped text,
then keep the pieces whose own strip is non-empty (pieces are returned
unstripped). -/
def split_sentences (text : Str) : List Str :=
  (splitAux (stripL text) [] false).filter (fun s => !(stripL s).isEmpty)

end Summarize

namespace Enhance

/-- `src/utils/enhance_summarize.py` `_split_sentences`: like the generic
splitter but with an explicit empty-input guard, and each kept piece is
stripped. -/
def split_sentences (text : Str) : List Str :=
  if (stripL text).isEmpty then []
  else (splitAux (stripL text) [] false).filterMap
    (fun s => if (stripL s).isEmpty then none else some (stripL s))

end Enhance

namespace Chinese

/-- Body of `re.split(r"[。！？]", text)`: cut at every full-width sentence
mark, discarding the mark itself. -/
def splitCJKAux (l acc : Str) : List Str :=
  match l with
  | [] => [acc.reverse]
  | c :: rest =>
    if isCJKPunct c then acc.reverse :: splitCJKAux rest []
    else splitCJKAux rest (c :: acc)

/-- `src/utils/chinese_summarize.py` `_split_chinese_sentences`. -/
def split_chinese_sentences (text : Str) : List Str :=
  if (stripL text).isEmpty then []
  else (splitCJKAux (stripL text) []).filterMap
    (fun s => if (stripL s).isEmpty then none else some (stripL s))

end Chinese

/-- The sentence-packing loop shared, token for token, by
`_chunk_by_tokens` (`src/utils/summarize.py`, integer token lengths) and the
tokenizer-less fallback of `_chunk_text` (`src/utils/enhance_summarize.py`,
fractional word-count estimates): accumulate sentences in `cur` with running
length `n`; when adding the next sentence would exceed the budget and `cur` is
non-empty, emit `" ".join(cur)` and restart from that sentence; at the end
flush a non-empty `cur`. -/
def chunkLoop {α : Type} [AddCommMonoid α] [LinearOrder α]
    (len : Str → α) (B : α) : List Str → List Str → α → List Str
  | [], cur, _ => if cur.isEmpty then [] else [joinSp cur]
  | s :: rest, cur, n =>
    if B < n + len s ∧ cur ≠ [] then
      joinSp cur :: chunkLoop len B rest [s] (len s)
    else
      chunkLoop len B rest (cur ++ [s]) (n + len s)

/-- The same loop, but returning the groups of sentences instead of their
space-joins; used to state and prove the packing invariants. -/
def packLoop {α : Type} [AddCommMonoid α] [LinearOrder α]
    (len : Str → α) (B : α) : List Str → List Str → α → List (List Str)
  | [], cur, _ => if cur.isEmpty then [] else [cur]
  | s :: rest, cur, n =>
    if B < n + len s ∧ cur ≠ [] then
      cur :: packLoop len B rest [s] (len s)
    else
      packLoop len B rest (cur ++ [s]) (n + len s)

namespace Summarize

/-- `src/utils/summarize.py` `_chunk_by_tokens`: sentence-aware packing with
per-sentence token lengths `len(_tokenizer.encode(s, add_special_tokens=False))`
abstracted as `tokLen`, followed by the final
`[c.strip() for c in chunks if c.strip()]`. -/
def chunk_by_tokens (tokLen : Str → ℕ) (text : Str) (max_tokens : ℕ) : List Str :=
  (chunkLoop tokLen max_tokens (split_sentences text) [] 0).filterMap
    (fun c => if (stripL c).isEmpty then none else some (stripL c))

end Summarize

namespace Enhance

/-- The tokenizer-less fallback branch of `_chunk_text`
(`src/utils/enhance_summarize.py`, lines 87-117): sentence-aware packing with
the rough estimate `len(sentence.split()) * 1.3` as the sentence length.  The
Python float `1.3` is modelled as the rational `13/10`; the packing invariants
proved below do not depend on the numeric values.  The per-sentence
`try/except` in the source cannot fire (the body only does arithmetic) and is
dropped. -/
def chunk_fallback (text : Str) (max_tokens : ℚ) : List Str :=
  if (stripL text).isEmpty then []
  else chunkLoop (fun s => ((splitWS s).length : ℚ) * (13 / 10)) max_tokens
    (split_sentences text) [] 0

end Enhance

/-- A Hugging Face tokenizer, abstracted: `encode` is
`tokenizer.encode(text, add_special_tokens=False, ...)` with `none` modelling a
raised exception; `encodeS` is `tokenizer.encode(text)` with special tokens
(used by the fast second-pass length check); `decode` is
`tokenizer.decode(ids, skip_special_tokens=True)`. -/
structure Tokenizer where
  encode : Str → Option (List ℕ)
  encodeS : Str → Option (List ℕ)
  decode : List ℕ → Str

namespace Performance

/-- Fuel-indexed form of the slicing loop of `optimize_text_chunking`; with
`B ≥ 1` every step consumes at least one id, so `ids.length` fuel always
suffices. -/
def windowSlicesGo (B : ℕ) : ℕ → List ℕ → List (List ℕ)
  | _, [] => []
  | 0, _ :: _ => []
  | fuel + 1, c :: rest => (c :: rest).take B :: windowSlicesGo B fuel ((c :: rest).drop B)

/-- The slicing loop `for i in range(0, len(token_ids), max_tokens)` of
`optimize_text_chunking`: contiguous windows of `B` token ids, the last one
possibly shorter.  Python `range` raises on step `0`, so the `B = 0` case is
never reached from `optimize_text_chunking`. -/
def windowSlices (B : ℕ) (ids : List ℕ) : List (List ℕ) :=
  windowSlicesGo B ids.length ids

/-- The `except` branch of `optimize_text_chunking`
(`src/utils/performance.py`, lines 307-331): word-based chunking with the
character-count heuristic `len(word) + 1` against the budget
`max_tokens * 4`. -/
def wordFallbackLoop (B : ℕ) : List Str → List Str → ℕ → List Str
  | [], cur, _ => if cur.isEmpty then [] else [joinSp cur]
  | w :: ws, cur, n =>
    if B * 4 < n + (w.length + 1) then
      if cur.isEmpty then
        w :: wordFallbackLoop B ws cur n
      else
        joinSp cur :: wordFallbackLoop B ws [w] (w.length + 1)
    else
      wordFallbackLoop B ws (cur ++ [w]) (n + (w.length + 1))

/-- The whole fallback: `words = text.split()` then the loop above. -/
def word_fallback (text : Str) (B : ℕ) : List Str :=
  wordFallbackLoop B (splitWS text) [] 0

/-- `src/utils/performance.py` `optimize_text_chunking`: encode the whole text,
slice the ids into `max_tokens`-sized windows, decode each window and keep the
stripped non-blank decodes; on a tokenization failure (including the
`ValueError` that `range(0, n, 0)` raises when `max_tokens = 0`) fall back to
word-based chunking. -/
def optimize_text_chunking (tok : Tokenizer) (text : Str) (max_tokens : ℕ) : List Str :=
  if (stripL text).isEmpty then []
  else
    (tok.encode text).elim (word_fallback text max_tokens) (fun ids =>
      if ids.isEmpty then []
      else if max_tokens = 0 then word_fallback text max_tokens
      else ((windowSlices max_tokens ids).map (fun w => stripL (tok.decode w))).filter
        (fun c => !c.isEmpty))

end Performance

/-- Outcome of one summarization-model call: `none` models a raised exception,
a malformed result shape, or a missing `summary_text`; `some s` models a
well-formed result with generated text `s` (possibly blank). -/
abbrev SummarizerCall := Str → Option Str

namespace Enhance

/-- `src/utils/enhance_summarize.py` `_format_markdown`: split into sentences;
several sentences become a `"- "`-bulleted, newline-joined list, a single
sentence is returned as is, and blank input or no sentences yield `""`. -/
def format_markdown (summary : Str) : Str :=
  if (stripL summary).isEmpty then []
  else
    match split_sentences summary with
    | [] => []
    | [s] => s
    | s1 :: s2 :: rest => joinNL ((s1 :: s2 :: rest).map (fun s => '-' :: ' ' :: s))

/-- Steps 3-4 of `enhance_summarize_text` (lines 239-247): trim the combined
summary to its first `max_sentences` sentences and format the re-join as
Markdown. -/
def trim_format (max_sentences : ℕ) (combined : Str) : Str :=
  format_markdown (joinSp ((split_sentences combined).take max_sentences))

/-- `src/utils/enhance_summarize.py` `_validate_input`.  The three checks in
source order; `none` means validation passes.  `max_sentences` is a Python
`int`, hence `ℤ`. -/
inductive ValErr where
  | emptyText
  | tooShort
  | badMaxSentences
  | missingModel
deriving DecidableEq

def validate_input (text : Str) (max_sentences : ℤ) : Option ValErr :=
  if (stripL text).isEmpty then some .emptyText
  else if (stripL text).length < 50 then some .tooShort
  else if max_sentences < 1 ∨ 50 < max_sentences then some .badMaxSentences
  else none

/-- The per-chunk loop of `enhance_summarize_text` (lines 181-209): skip chunks
whose token length is below 10, call the summarizer (indexed calls, so a model
that fails on some chunks and succeeds on others is expressible), keep the
stripped non-blank results. -/
def partialsOf (tokLen : Str → ℕ) (f : ℕ → SummarizerCall) (chunks : List Str) : List Str :=
  chunks.enum.filterMap (fun p =>
    if tokLen p.2 < 10 then none
    else match f p.1 p.2 with
      | none => none
      | some s => if (stripL s).isEmpty then none else some (stripL s))

/-- Step 2 of `enhance_summarize_text` (lines 214-237): join the partial
summaries with single spaces; when the joined text exceeds the token budget,
run one more summarizer call, keeping its stripped text on a well-formed
result and keeping the uncompressed join otherwise. -/
def reduce (tokLen : Str → ℕ) (budget : ℕ) (g : SummarizerCall) (partials : List Str) : Str :=
  if budget < tokLen (joinSp partials) then
    match g (joinSp partials) with
    | some s => stripL s
    | none => joinSp partials
  else joinSp partials

/-- Stage errors of `enhance_summarize_text` (each a distinct `raise` in the
source, lines 178-179, 211-212 and 241-242). -/
inductive PipeErr where
  | noChunks
  | noSummaries
  | noSentences
deriving DecidableEq

/-- `enhance_summarize_text` from the point where the chunk list has been
computed (lines 176-247): chunk-summarize, combine/reduce, split, trim and
format. -/
def run (tokLen : Str → ℕ) (budget : ℕ) (f : ℕ → SummarizerCall) (g : SummarizerCall)
    (max_sentences : ℕ) (chunks : List Str) : Except PipeErr Str :=
  if chunks.isEmpty then .error .noChunks
  else if (partialsOf tokLen f chunks).isEmpty then .error .noSummaries
  else if (split_sentences
      (reduce tokLen budget g (partialsOf tokLen f chunks))).isEmpty then
    .error .noSentences
  else .ok (trim_format max_sentences (reduce tokLen budget g (partialsOf tokLen f chunks)))

end Enhance

namespace Fast

/-- The validation block of `fast_summarize_text`
(`src/utils/fast_summarize.py`, lines 86-98), in source order; it extends
`_validate_input` with the model-name check. -/
def validate (text : Str) (max_sentences : ℤ) (model_name : Str) : Option Enhance.ValErr :=
  if (stripL text).isEmpty then some .emptyText
  else if (stripL text).length < 50 then some .tooShort
  else if max_sentences < 1 ∨ 50 < max_sentences then some .badMaxSentences
  else if model_name.isEmpty then some .missingModel
  else none

/-- `fast_summarize_text` up to its first model access: validation runs first
and short-circuits everything after it (`rest` stands for the model loading
and the whole summarization body). -/
def entry (text : Str) (max_sentences : ℤ) (model_name : Str)
    (rest : Except Enhance.ValErr Str) : Except Enhance.ValErr Str :=
  match validate text max_sentences model_name with
  | some e => .error e
  | none => rest

/-- The result collection of the parallel chunk loop of `fast_summarize_text`
(lines 129-144): `results.get i` is the outcome of `_process_chunk_parallel`
for chunk `i` (`some s` on success, `none` on any failure), and `order` is the
sequence in which `concurrent.futures.as_completed` yields the futures.  The
source appends each successful summary as its future completes. -/
def collect_partials (results : List (Option Str)) (order : List ℕ) : List Str :=
  order.filterMap (fun i => results.getD i none)

/-- The second-pass loop of `fast_summarize_text` (lines 158-172): re-chunk the
combined summary with budget 900, summarize each sub-chunk, keep stripped
non-blank outputs. -/
def refinedParts (tok : Tokenizer) (g : SummarizerCall) (combined : Str) : List Str :=
  (Performance.optimize_text_chunking tok combined 900).filterMap (fun ch =>
    match g ch with
    | none => none
    | some out => if (stripL out).isEmpty then none else some (stripL out))

/-- Step 4 of `fast_summarize_text` (lines 154-181): when
`len(tokenizer.encode(combined)) > 900` the combined summary is re-chunked and
re-summarized, falling back to the uncompressed join when the second pass
yields nothing (including when `encode` itself raises, which the enclosing
`try/except` absorbs). -/
def reduce (tok : Tokenizer) (g : SummarizerCall) (partials : List Str) : Str :=
  match tok.encodeS (joinSp partials) with
  | none => joinSp partials
  | some ids =>
    if 900 < ids.length then
      if (refinedParts tok g (joinSp partials)).isEmpty then joinSp partials
      else joinSp (refinedParts tok g (joinSp partials))
    else joinSp partials

end Fast

/-! ## Properties of the splitting primitives -/

/-- The list is non-empty and its first character is not whitespace. -/
def startsNonWS : Str → Bool
  | [] => false
  | c :: _ => !isWS c

/-- The list is non-empty and its last character is not whitespace. -/
def endsNonWS (s : Str) : Bool := startsNonWS s.reverse

/-- The list is non-empty and its last character is one of `.`, `!`, `?`. -/
def endsPunct (s : Str) : Bool := accEndsPunct s.reverse

/-- Whether an optional preceding character is sentence punctuation. -/
def prevPunct : Option Char → Bool
  | none => false
  | some c => isPunct c

/-- Scanning the list with `prev` as the character before it, no position
triggers the separator rule of `re.split(r"(?<=[.!?])\s+", ...)`: no
whitespace character is immediately preceded by `.`, `!` or `?`. -/
def scanOk : Option Char → Str → Bool
  | _, [] => true
  | prev, c :: rest => !(isWS c && prevPunct prev) && scanOk (some c) rest

/-- A well-formed sentence piece: non-empty, no surrounding whitespace, and no
separator trigger inside.  All pieces returned by the sentence splitters
satisfy this. -/
def sentOk (s : Str) : Bool := startsNonWS s && endsNonWS s && scanOk none s

theorem startsNonWS_append (l1 l2 : Str) (h : l1 ≠ []) :
    startsNonWS (l1 ++ l2) = startsNonWS l1 := by
  cases l1 with
  | nil => exact absurd rfl h
  | cons c t => rfl

theorem endsNonWS_append (l1 l2 : Str) (h : l2 ≠ []) :
    endsNonWS (l1 ++ l2) = endsNonWS l2 := by
  unfold endsNonWS
  rw [List.reverse_append]
  exact startsNonWS_append _ _ (by simpa)

theorem accEndsPunct_append (l1 l2 : Str) (h : l1 ≠ []) :
    accEndsPunct (l1 ++ l2) = accEndsPunct l1 := by
  cases l1 with
  | nil => exact absurd rfl h
  | cons c t => rfl

theorem endsPunct_append (l1 l2 : Str) (h : l2 ≠ []) :
    endsPunct (l1 ++ l2) = endsPunct l2 := by
  unfold endsPunct
  rw [List.reverse_append]
  exact accEndsPunct_append _ _ (by simpa)

theorem isPunct_not_ws {c : Char} (h : isPunct c = true) : isWS c = false := by
  unfold isPunct at h
  rcases Bool.or_eq_true_iff.mp h with h' | h'
  · rcases Bool.or_eq_true_iff.mp h' with h'' | h''
    · rw [eq_of_beq h'']; decide
    · rw [eq_of_beq h'']; decide
  · rw [eq_of_beq h']; decide

theorem startsNonWS_ne_nil {s : Str} (h : startsNonWS s = true) : s ≠ [] := by
  cases s with
  | nil => simp [startsNonWS] at h
  | cons c t => simp

theorem sentOk_ne_nil {s : Str} (h : sentOk s = true) : s ≠ [] := by
  unfold sentOk at h
  exact startsNonWS_ne_nil (by simp_all)

theorem dropWhile_eq_self_of_startsNonWS {l : Str} (h : startsNonWS l = true) :
    l.dropWhile isWS = l := by
  cases l with
  | nil => rfl
  | cons c t =>
    simp only [startsNonWS, Bool.not_eq_eq_eq_not, Bool.not_true] at h
    simp [List.dropWhile_cons, h]

theorem stripL_eq_self {l : Str} (h1 : startsNonWS l = true) (h2 : endsNonWS l = true) :
    stripL l = l := by
  unfold stripL
  rw [dropWhile_eq_self_of_startsNonWS h1, dropWhile_eq_self_of_startsNonWS h2,
    List.reverse_reverse]

theorem sentOk_stripL {s : Str} (h : sentOk s = true) : stripL s = s := by
  unfold sentOk at h
  exact stripL_eq_self (by simp_all) (by simp_all)

theorem stripL_eq_nil_iff (l : Str) : stripL l = [] ↔ ∀ c ∈ l, isWS c = true := by
  unfold stripL
  rw [List.reverse_eq_nil_iff, List.dropWhile_eq_nil_iff]
  constructor
  · intro h c hc
    have hsplit := List.takeWhile_append_dropWhile (p := isWS) (l := l)
    rw [← hsplit] at hc
    rcases List.mem_append.mp hc with h1 | h1
    · exact List.mem_takeWhile_imp h1
    · exact h c (List.mem_reverse.mpr h1)
  · intro h c hc
    exact h c ((List.dropWhile_suffix isWS).sublist.mem (List.mem_reverse.mp hc))

theorem stripL_startsNonWS {l : Str} (h : stripL l ≠ []) :
    startsNonWS (stripL l) = true ∧ endsNonWS (stripL l) = true := by
  unfold stripL at *
  set m := l.dropWhile isWS with hm
  set r := m.reverse.dropWhile isWS with hr
  constructor
  · -- the first character of `r.reverse` is the first character of `m`
    have hsuf : r <:+ m.reverse := List.dropWhile_suffix isWS
    have hpre : r.reverse <+: m.reverse.reverse := List.reverse_prefix.mpr hsuf
    rw [List.reverse_reverse] at hpre
    obtain ⟨t, ht⟩ := hpre
    have hrne : r.reverse ≠ [] := h
    have hs : startsNonWS m = startsNonWS r.reverse := by
      rw [← ht, startsNonWS_append _ _ hrne]
    rw [← hs]
    have hmne : m ≠ [] := by
      intro hmnil
      rw [hmnil] at ht
      exact hrne (List.append_eq_nil.mp ht).1
    cases hm2 : m with
    | nil => exact absurd hm2 hmne
    | cons c t2 =>
      have hh := List.head_dropWhile_not isWS l
      rw [← hm, hm2] at hh
      have hc : isWS c = false := by simpa using hh (by simp)
      simp [startsNonWS, hc]
  · -- the last character of `r.reverse` is the head of `r`, which survived
    -- `dropWhile isWS`
    unfold endsNonWS
    rw [List.reverse_reverse]
    cases hrv : r with
    | nil => simp [hrv] at h
    | cons c t =>
      have := List.head_dropWhile_not isWS m.reverse
      rw [← hr, hrv] at this
      have hc : isWS c = false := by simpa using this (by simp)
      simp [startsNonWS, hc]

theorem stripL_idem (l : Str) : stripL (stripL l) = stripL l := by
  by_cases h : stripL l = []
  · rw [h]; rfl
  · obtain ⟨h1, h2⟩ := stripL_startsNonWS h
    exact stripL_eq_self h1 h2

/-- The last character of `xs`, falling back to `p` when `xs` is empty; the
"previous character" once a scan has consumed `xs`. -/
def lastP (p : Option Char) : Str → Option Char
  | [] => p
  | x :: xs => lastP (some x) xs

theorem accEndsPunct_eq_prevPunct (acc : Str) :
    accEndsPunct acc = prevPunct acc.head? := by
  cases acc <;> rfl

theorem lastP_cons (p : Option Char) (x : Char) (xs : Str) :
    lastP p (x :: xs) = lastP (some x) xs := rfl

theorem lastP_reverse (acc : Str) : lastP none acc.reverse = acc.head? := by
  cases acc with
  | nil => rfl
  | cons c t =>
    have : ∀ (xs : Str) (p : Option Char) (c : Char), lastP p (xs ++ [c]) = some c := by
      intro xs
      induction xs with
      | nil => intro p c; rfl
      | cons x xs ih => intro p c; simpa [lastP] using ih (some x) c
    simpa using this t.reverse none c

theorem scanOk_snoc (p : Option Char) (xs : Str) (c : Char) :
    scanOk p (xs ++ [c]) = (scanOk p xs && !(isWS c && prevPunct (lastP p xs))) := by
  induction xs generalizing p with
  | nil => simp [scanOk, lastP]
  | cons x xs ih =>
    simp only [List.cons_append, scanOk, List.append_eq]
    rw [ih (some x), lastP_cons, Bool.and_assoc]

/-- The splitter never returns an empty list of pieces. -/
theorem splitAux_ne_nil (l : Str) : ∀ acc skip, splitAux l acc skip ≠ [] := by
  induction l with
  | nil => intro acc skip; simp [splitAux]
  | cons c rest ih =>
    intro acc skip
    simp only [splitAux]
    split
    · exact ih acc skip
    · split
      · simp
      · exact ih (c :: acc) false

/-- With no separator skipping pending, a non-trigger character is pushed onto
the current piece. -/
theorem splitAux_step_push (c : Char) (t acc : Str)
    (hcond : (isWS c && accEndsPunct acc) = false) :
    splitAux (c :: t) acc false = splitAux t (c :: acc) false := by
  simp [splitAux, hcond]

/-- Scanning a trigger-free block just accumulates it onto the current
piece. -/
theorem splitAux_through (p : Str) : ∀ (t acc : Str),
    scanOk acc.head? p = true →
    splitAux (p ++ t) acc false = splitAux t (p.reverse ++ acc) false := by
  induction p with
  | nil => intro t acc _; simp
  | cons c p' ih =>
    intro t acc h
    simp only [scanOk, Bool.and_eq_true, Bool.not_eq_eq_eq_not, Bool.not_true] at h
    obtain ⟨h1, h2⟩ := h
    have hcond : (isWS c && accEndsPunct acc) = false := by
      rw [accEndsPunct_eq_prevPunct]; exact h1
    rw [List.cons_append, splitAux_step_push c (p' ++ t) acc hcond,
      ih t (c :: acc) h2, List.reverse_cons, List.append_assoc, List.singleton_append]

/-- A whitespace character after a punctuation-ending accumulator flushes the
current piece. -/
theorem splitAux_flush (c : Char) (t acc : Str) (h1 : isWS c = true)
    (h2 : accEndsPunct acc = true) :
    splitAux (c :: t) acc false = acc.reverse :: splitAux t [] true := by
  simp [splitAux, h1, h2]

/-- Output specification of the scanner: every piece except possibly the last
is a well-formed sentence ending in punctuation, and every piece is either
empty or a well-formed sentence. -/
theorem splitAux_spec (l : Str) : ∀ (acc : Str) (skip : Bool),
    (skip = true → acc = []) →
    (skip = false → (startsNonWS (acc.reverse ++ l) = true ∨ acc.reverse ++ l = [])) →
    (endsNonWS (acc.reverse ++ l) = true ∨ acc.reverse ++ l = []) →
    scanOk none acc.reverse = true →
    (∀ s ∈ (splitAux l acc skip).dropLast, sentOk s = true ∧ endsPunct s = true)
    ∧ (∀ s ∈ splitAux l acc skip, s = [] ∨ sentOk s = true) := by
  induction l with
  | nil =>
    intro acc skip hskip hstart hends hscan
    refine ⟨by intro s hs; simp [splitAux] at hs, ?_⟩
    intro s hs
    simp only [splitAux, List.mem_singleton] at hs
    subst hs
    by_cases hacc : acc = []
    · left; simp [hacc]
    · right
      have hne : acc.reverse ≠ [] := by simpa
      cases skip with
      | true => exact absurd (hskip rfl) hacc
      | false =>
        have h1 := hstart rfl
        simp only [List.append_nil] at h1 hends
        rcases h1 with h1 | h1
        · rcases hends with h2 | h2
          · simp [sentOk, h1, h2, hscan]
          · exact absurd h2 hne
        · exact absurd h1 hne
  | cons c rest ih =>
    intro acc skip hskip hstart hends hscan
    have hendsRest : endsNonWS rest = true ∨ rest = [] := by
      by_cases hr : rest = []
      · right; exact hr
      · left
        rcases hends with h | h
        · rw [endsNonWS_append _ _ (by simp)] at h
          rwa [show c :: rest = [c] ++ rest from rfl, endsNonWS_append _ _ hr] at h
        · exact absurd h (by simp)
    cases skip with
    | true =>
      have hacc : acc = [] := hskip rfl
      subst hacc
      by_cases hw : isWS c = true
      · -- still consuming the separator's whitespace run
        have hstep : splitAux (c :: rest) [] true = splitAux rest [] true := by
          simp [splitAux, hw]
        rw [hstep]
        exact ih [] true (fun _ => rfl) (fun h => by exact absurd h (by decide))
          (by simpa using hendsRest) rfl
      · -- separator over: start the next piece with `c`
        have hstep : splitAux (c :: rest) [] true = splitAux rest [c] false := by
          simp [splitAux, hw]
        rw [hstep]
        refine ih [c] false (fun h => by exact absurd h (by decide)) ?_ ?_ ?_
        · intro _
          left
          have : startsNonWS (c :: rest) = true := by
            simp [startsNonWS, hw]
          simpa using this
        · rcases hends with h | h
          · left; simpa using h
          · exact absurd h (by simp)
        · simp [scanOk, prevPunct]
    | false =>
      by_cases hfl : (isWS c && accEndsPunct acc) = true
      · -- flush the current piece
        have hwc : isWS c = true := (Bool.and_eq_true_iff.mp hfl).1
        have hap : accEndsPunct acc = true := (Bool.and_eq_true_iff.mp hfl).2
        have haccne : acc ≠ [] := by
          cases acc with
          | nil => simp [accEndsPunct] at hap
          | cons a t => simp
        have hrevne : acc.reverse ≠ [] := by simpa
        rw [splitAux_flush c rest acc hwc hap]
        have hpieceStart : startsNonWS acc.reverse = true := by
          rcases hstart rfl with h | h
          · rwa [startsNonWS_append _ _ hrevne] at h
          · exact absurd (List.append_eq_nil.mp h).1 hrevne
        have hpieceEnd : endsNonWS acc.reverse = true := by
          unfold endsNonWS
          rw [List.reverse_reverse]
          cases acc with
          | nil => exact absurd rfl haccne
          | cons a t =>
            have : isPunct a = true := by simpa [accEndsPunct] using hap
            simp [startsNonWS, isPunct_not_ws this]
        have hpieceOk : sentOk acc.reverse = true := by
          simp [sentOk, hpieceStart, hpieceEnd, hscan]
        have hpiecePunct : endsPunct acc.reverse = true := by
          unfold endsPunct
          rwa [List.reverse_reverse]
        have hrec := ih [] true (fun _ => rfl) (fun h => by exact absurd h (by decide))
          (by simpa using hendsRest) rfl
        have htne : splitAux rest [] true ≠ [] := splitAux_ne_nil rest [] true
        constructor
        · intro s hs
          cases htl : splitAux rest [] true with
          | nil => exact absurd htl htne
          | cons q qs =>
            rw [htl] at hs
            simp only [List.dropLast, List.mem_cons] at hs
            rcases hs with hs | hs
            · subst hs; exact ⟨hpieceOk, hpiecePunct⟩
            · have : s ∈ (splitAux rest [] true).dropLast := by
                rw [htl]
                cases qs with
                | nil => simp at hs
                | cons q2 qs2 => simpa using hs
              exact hrec.1 s this
        · intro s hs
          simp only [List.mem_cons] at hs
          rcases hs with hs | hs
          · subst hs; right; exact hpieceOk
          · exact hrec.2 s hs
      · -- push `c` onto the current piece
        rw [splitAux_step_push c rest acc (by simpa using hfl)]
        have hcombeq : (c :: acc).reverse ++ rest = acc.reverse ++ c :: rest := by
          simp
        refine ih (c :: acc) false (fun h => by exact absurd h (by decide)) ?_ ?_ ?_
        · intro _
          rw [hcombeq]
          exact hstart rfl
        · rw [hcombeq]
          exact hends
        · rw [List.reverse_cons, scanOk_snoc, lastP_reverse, hscan]
          rw [← accEndsPunct_eq_prevPunct]
          have hfl2 : (isWS c && accEndsPunct acc) = false := Bool.eq_false_iff.mpr hfl
          simp [hfl2]

/-- If every piece the scanner produces strips to nothing, then every
character of the input (and of the accumulator) is whitespace. -/
theorem splitAux_blank (l : Str) : ∀ (acc : Str) (skip : Bool),
    (∀ p ∈ splitAux l acc skip, stripL p = []) →
    (∀ c ∈ acc, isWS c = true) ∧ (∀ c ∈ l, isWS c = true) := by
  induction l with
  | nil =>
    intro acc skip hp
    refine ⟨?_, by intro c hc; simp at hc⟩
    intro c hc
    have := hp acc.reverse (by simp [splitAux])
    exact (stripL_eq_nil_iff _).mp this c (by simpa)
  | cons c rest ih =>
    intro acc skip hp
    by_cases h1 : (skip && isWS c) = true
    · have hstep : splitAux (c :: rest) acc skip = splitAux rest acc skip := by
        simp [splitAux, h1]
      rw [hstep] at hp
      obtain ⟨ha, hr⟩ := ih acc skip hp
      refine ⟨ha, ?_⟩
      intro x hx
      rcases List.mem_cons.mp hx with hx | hx
      · subst hx; exact (Bool.and_eq_true_iff.mp h1).2
      · exact hr x hx
    · by_cases h2 : (isWS c && accEndsPunct acc) = true
      · -- a flushed piece ends in punctuation, which is not whitespace, so it
        -- cannot strip to nothing
        have hap : accEndsPunct acc = true := (Bool.and_eq_true_iff.mp h2).2
        have hstep : splitAux (c :: rest) acc skip
            = acc.reverse :: splitAux rest [] true := by
          cases skip with
          | true => simp [splitAux, h2, Bool.eq_false_iff.mpr h1] at *
          | false => exact splitAux_flush c rest acc (Bool.and_eq_true_iff.mp h2).1 hap
        rw [hstep] at hp
        have hblank := hp acc.reverse (by simp)
        cases acc with
        | nil => simp [accEndsPunct] at hap
        | cons a t =>
          have haws : isWS a = true :=
            (stripL_eq_nil_iff _).mp hblank a (by simp)
          have : isWS a = false := isPunct_not_ws (by simpa [accEndsPunct] using hap)
          simp [this] at haws
      · have hskipf : skip = false ∨ isWS c = false := by
          rcases Bool.and_eq_false_iff.mp (Bool.eq_false_iff.mpr h1) with h | h
          · left; simpa using h
          · right; simpa using h
        have hstep : splitAux (c :: rest) acc skip = splitAux rest (c :: acc) false := by
          cases skip with
          | true =>
            rcases hskipf with h | h
            · exact absurd h (by simp)
            · simp [splitAux, h]
          | false => exact splitAux_step_push c rest acc (Bool.eq_false_iff.mpr h2)
        rw [hstep] at hp
        obtain ⟨ha, hr⟩ := ih (c :: acc) false hp
        refine ⟨?_, ?_⟩
        · intro x hx; exact ha x (List.mem_cons_of_mem c hx)
        · intro x hx
          rcases List.mem_cons.mp hx with hx | hx
          · subst hx; exact ha x (by simp)
          · exact hr x hx

/-- If the filter predicate holds on all of `l.dropLast`, the filtered list's
`dropLast` stays inside `l.dropLast`. -/
theorem mem_dropLast_filter {α : Type} (p : α → Bool) (l : List α)
    (h : ∀ x ∈ l.dropLast, p x = true) :
    ∀ x ∈ (l.filter p).dropLast, x ∈ l.dropLast := by
  by_cases hl : l = []
  · subst hl; intro x hx; simp at hx
  · have hsplit := List.dropLast_append_getLast hl
    have hfdl : l.dropLast.filter p = l.dropLast := List.filter_eq_self.mpr h
    intro x hx
    rw [← hsplit, List.filter_append, hfdl] at hx
    by_cases hpl : p (l.getLast hl) = true
    · rw [show List.filter p [l.getLast hl] = [l.getLast hl] by simp [hpl],
        List.dropLast_concat] at hx
      exact hx
    · rw [show List.filter p [l.getLast hl] = [] by
        simp [List.filter, Bool.eq_false_iff.mpr hpl],
        List.append_nil] at hx
      exact (List.dropLast_sublist l.dropLast).subset hx

/-- Once the input continues with a non-whitespace character, separator
skipping is over and the two modes agree. -/
theorem splitAux_skip_exit (l : Str) (h : startsNonWS l = true) :
    splitAux l [] true = splitAux l [] false := by
  cases l with
  | nil => rfl
  | cons c rest =>
    simp only [startsNonWS, Bool.not_eq_eq_eq_not, Bool.not_true] at h
    simp [splitAux, h]

/-- The piece specification instantiated at the splitter's entry state. -/
theorem splitAux_top_spec (text : Str) :
    (∀ s ∈ (splitAux (stripL text) [] false).dropLast,
      sentOk s = true ∧ endsPunct s = true)
    ∧ (∀ s ∈ splitAux (stripL text) [] false, s = [] ∨ sentOk s = true) := by
  refine splitAux_spec (stripL text) [] false
    (fun h => by exact absurd h (by decide)) ?_ ?_ rfl
  · intro _
    by_cases h : stripL text = []
    · right; simpa using h
    · left; simpa using (stripL_startsNonWS h).1
  · by_cases h : stripL text = []
    · right; simpa using h
    · left; simpa using (stripL_startsNonWS h).2

namespace Summarize

/-- Every sentence returned by `_split_sentences` is a well-formed piece, and
every sentence except possibly the last ends in `.`, `!` or `?`. -/
theorem split_sentences_spec (text : Str) :
    (∀ s ∈ split_sentences text, sentOk s = true)
    ∧ (∀ s ∈ (split_sentences text).dropLast, endsPunct s = true) := by
  obtain ⟨hdl, hall⟩ := splitAux_top_spec text
  constructor
  · intro s hs
    obtain ⟨hmem, hkeep⟩ := List.mem_filter.mp hs
    rcases hall s hmem with h | h
    · subst h
      simp [stripL] at hkeep
    · exact h
  · intro s hs
    have hsub : ∀ x ∈ (splitAux (stripL text) [] false).dropLast,
        (fun s => !(stripL s).isEmpty) x = true := by
      intro x hx
      have hok := (hdl x hx).1
      show (!(stripL x).isEmpty) = true
      rw [sentOk_stripL hok]
      simpa using sentOk_ne_nil hok
    have := mem_dropLast_filter _ _ hsub s hs
    exact (hdl s this).2

/-- A text with non-blank strip splits into at least one sentence. -/
theorem split_sentences_ne_nil (text : Str) (h : stripL text ≠ []) :
    split_sentences text ≠ [] := by
  intro hnil
  have hblank : ∀ p ∈ splitAux (stripL text) [] false, stripL p = [] := by
    intro p hp
    by_contra hne
    have : p ∈ split_sentences text :=
      List.mem_filter.mpr ⟨hp, by simpa using hne⟩
    rw [hnil] at this
    simp at this
  have := (splitAux_blank (stripL text) [] false hblank).2
  have : stripL (stripL text) = [] := (stripL_eq_nil_iff _).mpr this
  rw [stripL_idem] at this
  exact h this

end Summarize

namespace Enhance

/-- The enhanced splitter agrees with the generic one: its extra empty-input
guard is redundant and its per-piece strip is the identity on the pieces that
survive the filter. -/
theorem split_sentences_eq (text : Str) :
    split_sentences text = Summarize.split_sentences text := by
  unfold split_sentences Summarize.split_sentences
  by_cases h : (stripL text).isEmpty
  · rw [if_pos h]
    have h0 : stripL text = [] := by simpa using h
    rw [h0]
    simp [splitAux, stripL]
  · rw [if_neg h]
    obtain ⟨_, hall⟩ := splitAux_top_spec text
    generalize hraw : splitAux (stripL text) [] false = raw at hall
    clear hraw
    induction raw with
    | nil => rfl
    | cons a t ih =>
      have ha := hall a (by simp)
      have htail := ih (fun s hs => hall s (List.mem_cons_of_mem a hs))
      rcases ha with ha | ha
      · subst ha
        simpa [List.filterMap_cons, List.filter_cons,
          show stripL ([] : Str) = [] from rfl] using htail
      · rw [List.filterMap_cons, List.filter_cons, sentOk_stripL ha]
        by_cases he : a = []
        · exact absurd he (sentOk_ne_nil ha)
        · rw [if_neg (by simpa using he), if_pos (by simpa using he)]
          rw [htail]

end Enhance

theorem joinSp_cons₂ (s s2 : Str) (rest : List Str) :
    joinSp (s :: s2 :: rest) = s ++ ' ' :: joinSp (s2 :: rest) := rfl

theorem startsNonWS_joinSp (s : Str) (ss : List Str) (h : startsNonWS s = true) :
    startsNonWS (joinSp (s :: ss)) = true := by
  cases ss with
  | nil => exact h
  | cons s2 rest =>
    rw [joinSp_cons₂, startsNonWS_append _ _ (startsNonWS_ne_nil h)]
    exact h

theorem joinSp_ne_nil (s : Str) (ss : List Str) (h : startsNonWS s = true) :
    joinSp (s :: ss) ≠ [] :=
  startsNonWS_ne_nil (startsNonWS_joinSp s ss h)

theorem endsNonWS_joinSp (ss : List Str) (hne : ss ≠ [])
    (h : ∀ s ∈ ss, sentOk s = true) : endsNonWS (joinSp ss) = true := by
  induction ss with
  | nil => exact absurd rfl hne
  | cons s rest ih =>
    cases rest with
    | nil =>
      have := h s (by simp)
      simp [sentOk] at this
      exact this.1.2
    | cons s2 rest2 =>
      rw [joinSp_cons₂, endsNonWS_append _ _ (by simp)]
      have hrec := ih (by simp) (fun x hx => h x (List.mem_cons_of_mem s hx))
      have hs2 : startsNonWS s2 = true := by
        have := h s2 (by simp)
        simp [sentOk] at this
        exact this.1.1
      have hjne : joinSp (s2 :: rest2) ≠ [] := joinSp_ne_nil s2 rest2 hs2
      rw [show (' ' :: joinSp (s2 :: rest2)) = [' '] ++ joinSp (s2 :: rest2) from rfl,
        endsNonWS_append _ _ hjne]
      exact hrec

theorem stripL_joinSp (ss : List Str) (hne : ss ≠ [])
    (h : ∀ s ∈ ss, sentOk s = true) :
    stripL (joinSp ss) = joinSp ss ∧ joinSp ss ≠ [] := by
  cases ss with
  | nil => exact absurd rfl hne
  | cons s rest =>
    have hs : startsNonWS s = true := by
      have := h s (by simp)
      simp [sentOk] at this
      exact this.1.1
    exact ⟨stripL_eq_self (startsNonWS_joinSp s rest hs)
      (endsNonWS_joinSp _ (by simp) h), joinSp_ne_nil s rest hs⟩

theorem mem_joinSp {c : Char} {s : Str} (ss : List Str) (hs : s ∈ ss) (hc : c ∈ s) :
    c ∈ joinSp ss := by
  induction ss with
  | nil => simp at hs
  | cons s0 rest ih =>
    rcases List.mem_cons.mp hs with h | h
    · subst h
      cases rest with
      | nil => exact hc
      | cons s2 rest2 =>
        rw [joinSp_cons₂]
        exact List.mem_append.mpr (Or.inl hc)
    · cases rest with
      | nil => simp at h
      | cons s2 rest2 =>
        rw [joinSp_cons₂]
        exact List.mem_append.mpr (Or.inr (List.mem_cons_of_mem ' ' (ih h)))

/-- Splitting the space-join of well-formed sentences, all of which except
possibly the last end in punctuation, recovers exactly those sentences. -/
theorem splitAux_joinSp (ss : List Str) (hne : ss ≠ [])
    (hok : ∀ s ∈ ss, sentOk s = true)
    (hpunct : ∀ s ∈ ss.dropLast, endsPunct s = true) :
    splitAux (joinSp ss) [] false = ss := by
  induction ss with
  | nil => exact absurd rfl hne
  | cons s rest ih =>
    have hs := hok s (by simp)
    have hscan : scanOk (List.head? ([] : Str)) s = true := by
      simp only [sentOk, Bool.and_eq_true] at hs
      exact hs.2
    cases rest with
    | nil =>
      have := splitAux_through s [] [] hscan
      simpa [joinSp, joinWith, splitAux] using this
    | cons s2 rest2 =>
      rw [joinSp_cons₂, splitAux_through s (' ' :: joinSp (s2 :: rest2)) [] hscan]
      have hp : accEndsPunct s.reverse = true := hpunct s (by simp [List.dropLast])
      rw [List.append_nil, splitAux_flush ' ' _ s.reverse (by decide) hp,
        List.reverse_reverse]
      have hs2start : startsNonWS s2 = true := by
        have := hok s2 (by simp)
        simp [sentOk] at this
        exact this.1.1
      rw [splitAux_skip_exit _ (startsNonWS_joinSp s2 rest2 hs2start)]
      rw [ih (by simp) (fun x hx => hok x (List.mem_cons_of_mem s hx))
        (fun x hx => hpunct x (by
          have hdl : (s :: s2 :: rest2).dropLast = s :: (s2 :: rest2).dropLast := by
            simp [List.dropLast]
          rw [hdl]
          exact List.mem_cons_of_mem s hx))]

section Packing

variable {α : Type} [AddCommMonoid α] [LinearOrder α] (len : Str → α) (B : α)

/-- The chunk loop emits exactly the space-joins of the packing groups. -/
theorem chunkLoop_eq_packLoop (ss : List Str) : ∀ (cur : List Str) (n : α),
    chunkLoop len B ss cur n = (packLoop len B ss cur n).map joinSp := by
  induction ss with
  | nil =>
    intro cur n
    by_cases h : cur.isEmpty <;> simp [chunkLoop, packLoop, h]
  | cons s rest ih =>
    intro cur n
    by_cases h : B < n + len s ∧ cur ≠ []
    · simp [chunkLoop, packLoop, h, ih]
    · simp [chunkLoop, packLoop, h, ih]

/-- The packing groups partition the incoming sentence sequence: nothing is
dropped, duplicated or reordered. -/
theorem packLoop_flatten (ss : List Str) : ∀ (cur : List Str) (n : α),
    (packLoop len B ss cur n).flatten = cur ++ ss := by
  induction ss with
  | nil =>
    intro cur n
    by_cases h : cur.isEmpty
    · simp [packLoop, h, List.isEmpty_iff.mp h]
    · simp [packLoop, h]
  | cons s rest ih =>
    intro cur n
    by_cases h : B < n + len s ∧ cur ≠ []
    · simp [packLoop, h, ih]
    · simp [packLoop, h, ih]

/-- Every packing group is non-empty. -/
theorem packLoop_ne_nil (ss : List Str) : ∀ (cur : List Str) (n : α),
    ∀ g ∈ packLoop len B ss cur n, g ≠ [] := by
  induction ss with
  | nil =>
    intro cur n g hg
    by_cases h : cur.isEmpty
    · simp [packLoop, h] at hg
    · simp only [packLoop, h, Bool.false_eq_true, if_false, List.mem_singleton] at hg
      subst hg
      simpa using h
  | cons s rest ih =>
    intro cur n g hg
    by_cases h : B < n + len s ∧ cur ≠ []
    · simp only [packLoop] at hg
      rw [if_pos h] at hg
      rcases List.mem_cons.mp hg with hg | hg
      · subst hg; exact h.2
      · exact ih _ _ g hg
    · simp only [packLoop] at hg
      rw [if_neg h] at hg
      exact ih _ _ g hg

/-- Budget invariant of the packing loop: every emitted group either fits the
budget (total of per-sentence lengths at most `B`) or is a single sentence. -/
theorem packLoop_budget (ss : List Str) : ∀ (cur : List Str) (n : α),
    n = (cur.map len).sum →
    (cur = [] ∨ (cur.map len).sum ≤ B ∨ cur.length = 1) →
    ∀ g ∈ packLoop len B ss cur n, (g.map len).sum ≤ B ∨ g.length = 1 := by
  induction ss with
  | nil =>
    intro cur n hn hinv g hg
    by_cases h : cur.isEmpty
    · simp [packLoop, h] at hg
    · simp only [packLoop, h, Bool.false_eq_true, if_false, List.mem_singleton] at hg
      subst hg
      rcases hinv with h1 | h1
      · simp [h1] at h
      · exact h1
  | cons s rest ih =>
    intro cur n hn hinv g hg
    by_cases h : B < n + len s ∧ cur ≠ []
    · simp only [packLoop] at hg
      rw [if_pos h] at hg
      rcases List.mem_cons.mp hg with hg | hg
      · subst hg
        rcases hinv with h1 | h1
        · exact absurd h1 h.2
        · exact h1
      · exact ih [s] (len s) (by simp) (by right; right; simp) g hg
    · simp only [packLoop] at hg
      rw [if_neg h] at hg
      by_cases hcur : cur = []
      · subst hcur
        refine ih [s] (n + len s) ?_ (by right; right; simp) g (by simpa using hg)
        simp only [List.map_nil, List.sum_nil] at hn
        simp [hn]
      · have hfit : n + len s ≤ B := by
          rcases not_and_or.mp h with h1 | h1
          · exact le_of_not_lt h1
          · exact absurd hcur (by simpa using h1)
        refine ih (cur ++ [s]) (n + len s) ?_ ?_ g hg
        · simp [hn]
        · right; left
          rw [List.map_append, List.sum_append]
          simpa [hn] using hfit

end Packing

/-- The two facts the packing correctness needs about a sentence sequence,
established above for the output of the sentence splitters: all sentences are
well-formed pieces and all but possibly the last end in punctuation. -/
def GoodSents (ss : List Str) : Prop :=
  (∀ s ∈ ss, sentOk s = true) ∧ (∀ s ∈ ss.dropLast, endsPunct s = true)

theorem goodSents_split (text : Str) : GoodSents (Summarize.split_sentences text) :=
  ⟨(Summarize.split_sentences_spec text).1, (Summarize.split_sentences_spec text).2⟩

theorem mem_take_mono {β : Type} {x : β} {l : List β} {a b : ℕ} (hab : a ≤ b)
    (hx : x ∈ l.take a) : x ∈ l.take b := by
  have heq : l.take a = (l.take b).take a := by
    rw [List.take_take, Nat.min_eq_left hab]
  rw [heq] at hx
  exact List.take_subset a (l.take b) hx

theorem goodSents_take (ss : List Str) (h : GoodSents ss) (n : ℕ) :
    GoodSents (ss.take n) := by
  constructor
  · intro s hs
    exact h.1 s (List.take_subset n ss hs)
  · intro s hs
    apply h.2
    rw [List.dropLast_eq_take, List.take_take] at hs
    rw [List.dropLast_eq_take]
    refine mem_take_mono ?_ hs
    simp only [List.length_take]
    omega

section PackingGood

variable {α : Type} [AddCommMonoid α] [LinearOrder α] (len : Str → α) (B : α)

/-- Every packing group of a good sentence sequence is itself good. -/
theorem packLoop_good (ss : List Str) (hgood : GoodSents ss) :
    ∀ g ∈ packLoop len B ss [] 0, GoodSents g := by
  intro g hg
  obtain ⟨pre, post, hsplit⟩ := List.append_of_mem hg
  have hflat : (packLoop len B ss [] 0).flatten = ss := by
    simpa using packLoop_flatten len B ss [] 0
  rw [hsplit, List.flatten_append, List.flatten_cons] at hflat
  constructor
  · intro x hx
    apply hgood.1
    rw [← hflat]
    exact List.mem_append.mpr (Or.inr (List.mem_append.mpr (Or.inl hx)))
  · intro x hx
    apply hgood.2
    have hgne : g ≠ [] := packLoop_ne_nil len B ss [] 0 g hg
    have hgdec := List.dropLast_append_getLast hgne
    rw [← hflat, ← hgdec, List.append_assoc,
      List.dropLast_append_of_ne_nil _ (by simp),
      List.dropLast_append_of_ne_nil _ (by simp)]
    exact List.mem_append.mpr (Or.inr (List.mem_append.mpr (Or.inl hx)))

/-- Re-splitting any chunk (the space-join of a good group) recovers exactly
the group's sentences. -/
theorem split_joinSp_of_good (g : List Str) (hne : g ≠ []) (hgood : GoodSents g) :
    Summarize.split_sentences (joinSp g) = g := by
  obtain ⟨hstr, hjne⟩ := stripL_joinSp g hne hgood.1
  unfold Summarize.split_sentences
  rw [hstr, splitAux_joinSp g hne hgood.1 hgood.2]
  apply List.filter_eq_self.mpr
  intro s hs
  have hok := hgood.1 s hs
  show (!(stripL s).isEmpty) = true
  rw [sentOk_stripL hok]
  simpa using sentOk_ne_nil hok

end PackingGood

theorem filterMap_stripKeep_id (L : List Str) (h : ∀ c ∈ L, stripL c = c ∧ c ≠ []) :
    L.filterMap (fun c => if (stripL c).isEmpty then none else some (stripL c)) = L := by
  induction L with
  | nil => rfl
  | cons a t ih =>
    obtain ⟨ha1, ha2⟩ := h a (by simp)
    rw [List.filterMap_cons, ha1, if_neg (by simpa using ha2),
      ih (fun c hc => h c (List.mem_cons_of_mem a hc))]

/-- `_chunk_by_tokens` in terms of the packing groups: the trailing
`[c.strip() for c in chunks if c.strip()]` is the identity on the emitted
chunks. -/
theorem chunk_by_tokens_eq_groups (tokLen : Str → ℕ) (text : Str) (B : ℕ) :
    Summarize.chunk_by_tokens tokLen text B
      = (packLoop tokLen B (Summarize.split_sentences text) [] 0).map joinSp := by
  unfold Summarize.chunk_by_tokens
  rw [chunkLoop_eq_packLoop]
  apply filterMap_stripKeep_id
  intro c hc
  obtain ⟨g, hg, rfl⟩ := List.mem_map.mp hc
  have hne := packLoop_ne_nil tokLen B (Summarize.split_sentences text) [] 0 g hg
  have hgood := packLoop_good tokLen B _ (goodSents_split text) g hg
  exact stripL_joinSp g hne hgood.1

/-- The enhanced fallback chunker in terms of the packing groups. -/
theorem chunk_fallback_eq_groups (text : Str) (M : ℚ) :
    Enhance.chunk_fallback text M
      = (packLoop (fun s => ((splitWS s).length : ℚ) * (13 / 10)) M
          (Summarize.split_sentences text) [] 0).map joinSp := by
  unfold Enhance.chunk_fallback
  by_cases h : (stripL text).isEmpty
  · rw [if_pos h]
    have h0 : stripL text = [] := by simpa using h
    have hsplit : Summarize.split_sentences text = [] := by
      unfold Summarize.split_sentences
      rw [h0]
      simp [splitAux, stripL]
    rw [hsplit]
    simp [packLoop]
  · rw [if_neg h, Enhance.split_sentences_eq, chunkLoop_eq_packLoop]

/-- Re-splitting the chunks built over any good sentence sequence recovers
that sequence exactly. -/
theorem groups_flatMap_split {α : Type} [AddCommMonoid α] [LinearOrder α]
    (len : Str → α) (B : α) (ss : List Str) (hgood : GoodSents ss) :
    ((packLoop len B ss [] 0).map joinSp).flatMap Summarize.split_sentences = ss := by
  rw [List.flatMap_def, List.map_map]
  have hmap : (packLoop len B ss [] 0).map (Summarize.split_sentences ∘ joinSp)
      = (packLoop len B ss [] 0).map id := by
    apply List.map_congr_left
    intro g hg
    have hne := packLoop_ne_nil len B ss [] 0 g hg
    have hg2 := packLoop_good len B ss hgood g hg
    simpa using split_joinSp_of_good g hne hg2
  rw [hmap, List.map_id]
  simpa using packLoop_flatten len B ss [] 0

/-- C1.  The claim as frozen is false: `_chunk_by_tokens` bounds the *sum of
the per-sentence encoded lengths* of each chunk, and for a tokenizer in which
the encoding of a space-join is longer than the encodings of its parts the
joined chunk itself re-encodes to more than the budget with no sentence over
budget.  Here a one-token-per-character tokenizer on `"aa. bb."` with budget 6
produces the single chunk `"aa. bb."` of encoded length 7 while both
sentences encode to 3 tokens. -/
theorem C1_counterexample :
    Summarize.chunk_by_tokens List.length "aa. bb.".toList 6 = ["aa. bb.".toList]
    ∧ 6 < ("aa. bb.".toList).length
    ∧ ∀ s ∈ Summarize.split_sentences "aa. bb.".toList, s.length ≤ 6 := by
  decide

/-- C1 (amended).  Every chunk produced by `_chunk_by_tokens` is the space-join
of a consecutive group of sentences; the groups partition the sentence
sequence (no sentence is dropped or truncated); and each group's total
per-sentence encoded token length is at most the budget, except that a group
may be a single sentence whose own encoding exceeds the budget — that sentence
becomes its own over-budget chunk. -/
theorem C1_token_budget (tokLen : Str → ℕ) (text : Str) (B : ℕ) :
    Summarize.chunk_by_tokens tokLen text B
        = (packLoop tokLen B (Summarize.split_sentences text) [] 0).map joinSp
    ∧ (packLoop tokLen B (Summarize.split_sentences text) [] 0).flatten
        = Summarize.split_sentences text
    ∧ ∀ g ∈ packLoop tokLen B (Summarize.split_sentences text) [] 0,
        g ≠ [] ∧ ((g.map tokLen).sum ≤ B ∨ (g.length = 1 ∧ B < (g.map tokLen).sum)) := by
  refine ⟨chunk_by_tokens_eq_groups tokLen text B, ?_, ?_⟩
  · simpa using packLoop_flatten tokLen B (Summarize.split_sentences text) [] 0
  · intro g hg
    refine ⟨packLoop_ne_nil tokLen B _ [] 0 g hg, ?_⟩
    rcases packLoop_budget tokLen B _ [] 0 rfl (Or.inl rfl) g hg with h | h
    · exact Or.inl h
    · rcases le_or_lt ((g.map tokLen).sum) B with h2 | h2
      · exact Or.inl h2
      · exact Or.inr ⟨h, h2⟩

/-- C2.  Sentence-aware packing preserves the sentence sequence: re-splitting
the chunks of `_chunk_by_tokens` (for any tokenizer and budget) and of the
enhanced fallback chunker, in order, yields exactly the sentences of the
original text — none lost, duplicated or reordered. -/
theorem C2_order_preservation (tokLen : Str → ℕ) (text : Str) (B : ℕ) (M : ℚ) :
    (Summarize.chunk_by_tokens tokLen text B).flatMap Summarize.split_sentences
        = Summarize.split_sentences text
    ∧ (Enhance.chunk_fallback text M).flatMap Enhance.split_sentences
        = Enhance.split_sentences text := by
  constructor
  · rw [chunk_by_tokens_eq_groups]
    exact groups_flatMap_split tokLen B _ (goodSents_split text)
  · rw [chunk_fallback_eq_groups, Enhance.split_sentences_eq]
    have hsplit : (fun t => Enhance.split_sentences t) = Summarize.split_sentences := by
      funext t
      exact Enhance.split_sentences_eq t
    rw [show (Enhance.split_sentences : Str → List Str) = Summarize.split_sentences
      from hsplit]
    exact groups_flatMap_split _ M _ (goodSents_split text)


theorem enhance_split_ne_nil (t : Str) (h : stripL t ≠ []) :
    Enhance.split_sentences t ≠ [] := by
  rw [Enhance.split_sentences_eq]
  exact Summarize.split_sentences_ne_nil t h

theorem joinWith_ne_nil (sep : Char) (x : Str) (rest : List Str) (hx : x ≠ []) :
    joinWith sep (x :: rest) ≠ [] := by
  cases rest with
  | nil => exact hx
  | cons y t =>
    cases x with
    | nil => exact absurd rfl hx
    | cons c cs => simp [joinWith]

/-- The trim-and-format step of `enhance_summarize_text` in closed form: it
keeps exactly the first `max_sentences` sentences; a single kept sentence is
returned unchanged, several kept sentences become a `"- "`-bulleted
newline-joined list. -/
theorem trim_format_eq (combined : Str) (N : ℕ) (h1 : 1 ≤ N)
    (h2 : Enhance.split_sentences combined ≠ []) :
    Enhance.trim_format N combined
      = if ((Enhance.split_sentences combined).take N).length = 1
        then ((Enhance.split_sentences combined).take N).headD []
        else joinNL (((Enhance.split_sentences combined).take N).map
          (fun s => '-' :: ' ' :: s)) := by
  unfold Enhance.trim_format
  rw [Enhance.split_sentences_eq combined] at h2 ⊢
  have hkept : (Summarize.split_sentences combined).take N ≠ [] := by
    intro hc
    rcases List.take_eq_nil_iff.mp hc with h | h
    · omega
    · exact h2 h
  have hgood : GoodSents ((Summarize.split_sentences combined).take N) :=
    goodSents_take _ (goodSents_split combined) N
  obtain ⟨hstr, hjne⟩ :=
    stripL_joinSp ((Summarize.split_sentences combined).take N) hkept hgood.1
  unfold Enhance.format_markdown
  rw [Enhance.split_sentences_eq, split_joinSp_of_good _ hkept hgood, hstr,
    if_neg (by simpa using hjne)]
  cases hk : (Summarize.split_sentences combined).take N with
  | nil => exact absurd hk hkept
  | cons k1 krest =>
    cases krest with
    | nil => simp
    | cons k2 krest2 => simp [joinNL]

/-- The trim-and-format step never returns an empty string when at least one
sentence is available and the sentence budget is positive. -/
theorem trim_format_ne_nil (combined : Str) (N : ℕ) (h1 : 1 ≤ N)
    (h2 : Enhance.split_sentences combined ≠ []) :
    Enhance.trim_format N combined ≠ [] := by
  rw [trim_format_eq combined N h1 h2]
  rw [Enhance.split_sentences_eq combined] at h2
  have hkept : (Summarize.split_sentences combined).take N ≠ [] := by
    intro hc
    rcases List.take_eq_nil_iff.mp hc with h | h
    · omega
    · exact h2 h
  have hgood : GoodSents ((Summarize.split_sentences combined).take N) :=
    goodSents_take _ (goodSents_split combined) N
  rw [Enhance.split_sentences_eq combined]
  cases hk : (Summarize.split_sentences combined).take N with
  | nil => exact absurd hk hkept
  | cons k1 krest =>
    cases krest with
    | nil =>
      simp only [List.length_singleton, if_pos rfl, List.headD_cons]
      exact sentOk_ne_nil (hgood.1 k1 (hk ▸ List.mem_singleton_self k1))
    | cons k2 krest2 =>
      rw [if_neg (by simp)]
      exact joinWith_ne_nil '\n' _ _ (by simp)

theorem partialsOf_strip (tokLen : Str → ℕ) (f : ℕ → SummarizerCall)
    (chunks : List Str) :
    ∀ p ∈ Enhance.partialsOf tokLen f chunks, stripL p = p ∧ p ≠ [] := by
  intro p hp
  unfold Enhance.partialsOf at hp
  obtain ⟨⟨i, ch⟩, hmem, heq⟩ := List.mem_filterMap.mp hp
  by_cases h10 : tokLen ch < 10
  · simp [h10] at heq
  · cases hf : f i ch with
    | none => simp [h10, hf] at heq
    | some s =>
      by_cases hs : (stripL s).isEmpty
      · simp [h10, hf, hs] at heq
      · simp only [h10, if_false, hf, hs, Bool.false_eq_true] at heq
        have hsp : stripL s = p := by simpa using heq
        subst hsp
        exact ⟨stripL_idem s, by simpa using hs⟩

theorem joinSp_strip_ne_nil (ps : List Str) (hne : ps ≠ [])
    (h : ∀ p ∈ ps, stripL p ≠ []) : stripL (joinSp ps) ≠ [] := by
  cases ps with
  | nil => exact absurd rfl hne
  | cons p rest =>
    have hp := h p (by simp)
    have hnw : ¬∀ c ∈ p, isWS c = true :=
      fun hall => hp ((stripL_eq_nil_iff p).mpr hall)
    push_neg at hnw
    obtain ⟨c, hc, hcws⟩ := hnw
    intro hcontra
    exact hcws ((stripL_eq_nil_iff _).mp hcontra c
      (mem_joinSp (p :: rest) (by simp) hc))

/-- When the second pass never produces a blank summary, the combined summary
coming out of the enhanced reducer never strips to nothing. -/
theorem enhance_reduce_strip (tokLen : Str → ℕ) (B : ℕ) (g : SummarizerCall)
    (partials : List Str) (hne : partials ≠ [])
    (hps : ∀ p ∈ partials, stripL p ≠ [])
    (hg : ∀ s t, g s = some t → stripL t ≠ []) :
    stripL (Enhance.reduce tokLen B g partials) ≠ [] := by
  unfold Enhance.reduce
  by_cases hb : B < tokLen (joinSp partials)
  · rw [if_pos hb]
    cases hgc : g (joinSp partials) with
    | none => exact joinSp_strip_ne_nil partials hne hps
    | some s =>
      rw [stripL_idem]
      exact hg _ s hgc
  · rw [if_neg hb]
    exact joinSp_strip_ne_nil partials hne hps

/-- C3.  The claim as frozen is false: when the combined summary exceeds the
token budget, a second pass whose well-formed result strips to the empty
string is accepted as the new combined summary, and the pipeline then raises
the "no sentences" error even though a chunk summarization succeeded.  Here
the single chunk succeeds (`partialsOf` is non-empty) yet `run` errors. -/
theorem C3_counterexample :
    Enhance.partialsOf List.length (fun _ _ => some "bbbbbbbbbb".toList)
        ["aaaaaaaaaaaa".toList] ≠ []
    ∧ Enhance.run List.length 5 (fun _ _ => some "bbbbbbbbbb".toList)
        (fun _ => some [' ']) 3 ["aaaaaaaaaaaa".toList] = .error .noSentences :=
  ⟨by decide, by rfl⟩

/-- C3 (amended).  Provided the second summarization pass never returns a
blank summary text, the enhanced pipeline raises the summarization-stage
error ("no summaries were generated") exactly when zero chunks produce a
valid partial summary, and whenever at least one chunk succeeds it returns a
non-empty formatted result with no exception for the failed chunks. -/
theorem C3_partial_failure (tokLen : Str → ℕ) (B : ℕ) (f : ℕ → SummarizerCall)
    (g : SummarizerCall) (N : ℕ) (chunks : List Str)
    (hchunks : chunks ≠ []) (hN : 1 ≤ N)
    (hg : ∀ s t, g s = some t → stripL t ≠ []) :
    (Enhance.run tokLen B f g N chunks = .error .noSummaries
        ↔ Enhance.partialsOf tokLen f chunks = [])
    ∧ (Enhance.partialsOf tokLen f chunks ≠ [] →
        Enhance.run tokLen B f g N chunks
          = .ok (Enhance.trim_format N
              (Enhance.reduce tokLen B g (Enhance.partialsOf tokLen f chunks)))
        ∧ Enhance.trim_format N
            (Enhance.reduce tokLen B g (Enhance.partialsOf tokLen f chunks)) ≠ []) := by
  unfold Enhance.run
  rw [if_neg (by simpa using hchunks)]
  by_cases hp : (Enhance.partialsOf tokLen f chunks).isEmpty
  · rw [if_pos hp]
    exact ⟨⟨fun _ => by simpa using hp, fun _ => rfl⟩,
      fun hne => absurd (by simpa using hp) hne⟩
  · rw [if_neg hp]
    have hpne : Enhance.partialsOf tokLen f chunks ≠ [] := by simpa using hp
    have hps : ∀ q ∈ Enhance.partialsOf tokLen f chunks, stripL q ≠ [] := by
      intro q hq
      obtain ⟨h1, h2⟩ := partialsOf_strip tokLen f chunks q hq
      rw [h1]
      exact h2
    have hred := enhance_reduce_strip tokLen B g _ hpne hps hg
    have hsents := enhance_split_ne_nil _ hred
    rw [if_neg (by simpa using hsents)]
    exact ⟨by simp [hpne], fun _ => ⟨rfl, trim_format_ne_nil _ N hN hsents⟩⟩

/-- C3 witness: a concrete instantiation in which the chunk summarizer
succeeds and the second pass always returns `"x."`. -/
theorem C3_partial_failure_witness :
    (Enhance.run List.length 5 (fun _ _ => some "Good summary.".toList)
        (fun _ => some "x.".toList) 3 ["cccccccccccc".toList] = .error .noSummaries
      ↔ Enhance.partialsOf List.length (fun _ _ => some "Good summary.".toList)
          ["cccccccccccc".toList] = [])
    ∧ (Enhance.partialsOf List.length (fun _ _ => some "Good summary.".toList)
          ["cccccccccccc".toList] ≠ [] →
        Enhance.run List.length 5 (fun _ _ => some "Good summary.".toList)
            (fun _ => some "x.".toList) 3 ["cccccccccccc".toList]
          = .ok (Enhance.trim_format 3
              (Enhance.reduce List.length 5 (fun _ => some "x.".toList)
                (Enhance.partialsOf List.length
                  (fun _ _ => some "Good summary.".toList) ["cccccccccccc".toList])))
        ∧ Enhance.trim_format 3
            (Enhance.reduce List.length 5 (fun _ => some "x.".toList)
              (Enhance.partialsOf List.length
                (fun _ _ => some "Good summary.".toList) ["cccccccccccc".toList])) ≠ []) :=
  C3_partial_failure List.length 5 (fun _ _ => some "Good summary.".toList)
    (fun _ => some "x.".toList) 3 ["cccccccccccc".toList] (by decide) (by decide)
    (fun s t ht => by
      have : "x.".toList = t := by simpa using ht
      rw [← this]
      decide)

/-- C4.  The Output Formatter (trim to the first `max_sentences` sentences,
then `_format_markdown`): a single remaining sentence is returned unchanged
with no bullet prefix, and several remaining sentences become a newline-joined
Markdown bullet list with each line `"- "` followed by the sentence. -/
theorem C4_output_formatter (combined : Str) (N : ℕ) (h1 : 1 ≤ N)
    (h2 : Enhance.split_sentences combined ≠ []) :
    Enhance.trim_format N combined
      = if ((Enhance.split_sentences combined).take N).length = 1
        then ((Enhance.split_sentences combined).take N).headD []
        else joinNL (((Enhance.split_sentences combined).take N).map
          (fun s => '-' :: ' ' :: s)) :=
  trim_format_eq combined N h1 h2

/-- C4 witness: three sentences trimmed to two, rendered as two bullets. -/
theorem C4_output_formatter_witness :
    Enhance.trim_format 2 "Aa bb. Cc dd. Ee ff.".toList
      = if ((Enhance.split_sentences "Aa bb. Cc dd. Ee ff.".toList).take 2).length = 1
        then ((Enhance.split_sentences "Aa bb. Cc dd. Ee ff.".toList).take 2).headD []
        else joinNL (((Enhance.split_sentences "Aa bb. Cc dd. Ee ff.".toList).take 2).map
          (fun s => '-' :: ' ' :: s)) :=
  C4_output_formatter "Aa bb. Cc dd. Ee ff.".toList 2 (by decide) (by decide)

/-- C5.  Validation runs before any model work and raises a distinct error in
exactly the documented cases; `max_sentences` boundaries 0 and 51 raise while
1 and 50 pass; the enhanced variant's `_validate_input` agrees with the fast
variant's checks whenever the model name is present. -/
theorem C5_validation (text model_name : Str) (maxS : ℤ)
    (rest : Except Enhance.ValErr Str)
    (htext1 : stripL text ≠ []) (htext2 : 50 ≤ (stripL text).length)
    (hmodel : model_name ≠ []) :
    (Fast.validate text maxS model_name = none ↔ 1 ≤ maxS ∧ maxS ≤ 50)
    ∧ Fast.validate text 0 model_name = some .badMaxSentences
    ∧ Fast.validate text 51 model_name = some .badMaxSentences
    ∧ Fast.validate text 1 model_name = none
    ∧ Fast.validate text 50 model_name = none
    ∧ (∀ t : Str, ∀ m : ℤ, ∀ s : Str, stripL t = [] →
        Fast.validate t m s = some .emptyText)
    ∧ (∀ t : Str, ∀ m : ℤ, ∀ s : Str, stripL t ≠ [] → (stripL t).length < 50 →
        Fast.validate t m s = some .tooShort)
    ∧ (1 ≤ maxS → maxS ≤ 50 → Fast.validate text maxS [] = some .missingModel)
    ∧ (∀ t : Str, ∀ m : ℤ, Fast.validate t m model_name = Enhance.validate_input t m)
    ∧ (∀ e, Fast.validate text maxS model_name = some e →
        Fast.entry text maxS model_name rest = .error e)
    ∧ (Fast.validate text maxS model_name = none →
        Fast.entry text maxS model_name rest = rest) := by
  have hv : ∀ m : ℤ, Fast.validate text m model_name
      = if m < 1 ∨ 50 < m then some .badMaxSentences else none := by
    intro m
    unfold Fast.validate
    rw [if_neg (by simpa using htext1), if_neg (by omega)]
    by_cases hb : m < 1 ∨ 50 < m
    · rw [if_pos hb, if_pos hb]
    · rw [if_neg hb, if_neg hb, if_neg (by simpa using hmodel)]
  refine ⟨?_, ?_, ?_, ?_, ?_, ?_, ?_, ?_, ?_, ?_, ?_⟩
  · constructor
    · intro h
      rw [hv maxS] at h
      by_cases hb : maxS < 1 ∨ 50 < maxS
      · rw [if_pos hb] at h
        exact absurd h (by simp)
      · constructor <;> omega
    · intro h
      rw [hv maxS, if_neg (by omega)]
  · rw [hv 0, if_pos (by norm_num)]
  · rw [hv 51, if_pos (by norm_num)]
  · rw [hv 1, if_neg (by norm_num)]
  · rw [hv 50, if_neg (by norm_num)]
  · intro t m s h
    unfold Fast.validate
    rw [if_pos (by simpa using h)]
  · intro t m s h1 h2
    unfold Fast.validate
    rw [if_neg (by simpa using h1), if_pos h2]
  · intro ha hb
    unfold Fast.validate
    rw [if_neg (by simpa using htext1), if_neg (by omega), if_neg (by omega),
      if_pos (by simp)]
  · intro t m
    unfold Fast.validate Enhance.validate_input
    by_cases h1 : (stripL t).isEmpty
    · rw [if_pos h1, if_pos h1]
    · rw [if_neg h1, if_neg h1]
      by_cases h2 : (stripL t).length < 50
      · rw [if_pos h2, if_pos h2]
      · rw [if_neg h2, if_neg h2]
        by_cases h3 : m < 1 ∨ 50 < m
        · rw [if_pos h3, if_pos h3]
        · rw [if_neg h3, if_neg h3, if_neg (by simpa using hmodel)]
  · intro e he
    unfold Fast.entry
    rw [he]
  · intro hn
    unfold Fast.entry
    rw [hn]

/-- C5 witness: a 64-character text, a non-empty model name, and
`max_sentences = 7`. -/
theorem C5_validation_witness :
    (Fast.validate "Valid input text that is definitely long enough for checks here.".toList
        7 "bart".toList = none ↔ 1 ≤ (7 : ℤ) ∧ (7 : ℤ) ≤ 50)
    ∧ Fast.validate "Valid input text that is definitely long enough for checks here.".toList
        0 "bart".toList = some .badMaxSentences
    ∧ Fast.validate "Valid input text that is definitely long enough for checks here.".toList
        51 "bart".toList = some .badMaxSentences
    ∧ Fast.validate "Valid input text that is definitely long enough for checks here.".toList
        1 "bart".toList = none
    ∧ Fast.validate "Valid input text that is definitely long enough for checks here.".toList
        50 "bart".toList = none
    ∧ (∀ t : Str, ∀ m : ℤ, ∀ s : Str, stripL t = [] →
        Fast.validate t m s = some .emptyText)
    ∧ (∀ t : Str, ∀ m : ℤ, ∀ s : Str, stripL t ≠ [] → (stripL t).length < 50 →
        Fast.validate t m s = some .tooShort)
    ∧ (1 ≤ (7 : ℤ) → (7 : ℤ) ≤ 50 →
        Fast.validate "Valid input text that is definitely long enough for checks here.".toList
          7 [] = some .missingModel)
    ∧ (∀ t : Str, ∀ m : ℤ, Fast.validate t m "bart".toList = Enhance.validate_input t m)
    ∧ (∀ e, Fast.validate "Valid input text that is definitely long enough for checks here.".toList
          7 "bart".toList = some e →
        Fast.entry "Valid input text that is definitely long enough for checks here.".toList
          7 "bart".toList (.ok []) = .error e)
    ∧ (Fast.validate "Valid input text that is definitely long enough for checks here.".toList
          7 "bart".toList = none →
        Fast.entry "Valid input text that is definitely long enough for checks here.".toList
          7 "bart".toList (.ok []) = .ok []) :=
  C5_validation "Valid input text that is definitely long enough for checks here.".toList
    "bart".toList 7 (.ok []) (by decide) (by decide) (by decide)

/-- C6.  The claim as frozen is false for the enhanced variant: a second pass
returning a well-formed result whose summary text strips to nothing replaces
the combined summary with the empty string instead of falling back to the
uncompressed join.  Here the joined partials are non-blank, the second pass
returns whitespace, and the reducer returns the empty string. -/
theorem C6_counterexample :
    Enhance.reduce List.length 5 (fun _ => some [' ']) ["aaaaaaa".toList] = []
    ∧ joinSp ["aaaaaaa".toList] ≠ []
    ∧ stripL [' '] = [] := by
  decide

/-- C6 (amended).  Both reducers join the partial summaries with single spaces
and run a second pass exactly when the joined text's encoded token length
exceeds the budget (900 in the fast variant, `MAX_INPUT_TOKENS` in the
enhanced variant).  In the fast variant a second pass that raises or yields
nothing usable falls back to the uncompressed join (also when `encode` itself
raises); in the enhanced variant the fallback happens only when the second
pass raises or returns a malformed result, while a well-formed result is
accepted stripped — even when blank. -/
theorem C6_reducer (tok : Tokenizer) (g : SummarizerCall) (partials : List Str)
    (tokLen : Str → ℕ) (B : ℕ) :
    (tok.encodeS (joinSp partials) = none →
        Fast.reduce tok g partials = joinSp partials)
    ∧ (∀ ids, tok.encodeS (joinSp partials) = some ids → ids.length ≤ 900 →
        Fast.reduce tok g partials = joinSp partials)
    ∧ (∀ ids, tok.encodeS (joinSp partials) = some ids → 900 < ids.length →
        Fast.reduce tok g partials
          = if (Fast.refinedParts tok g (joinSp partials)).isEmpty
            then joinSp partials
            else joinSp (Fast.refinedParts tok g (joinSp partials)))
    ∧ (tokLen (joinSp partials) ≤ B →
        Enhance.reduce tokLen B g partials = joinSp partials)
    ∧ (B < tokLen (joinSp partials) → g (joinSp partials) = none →
        Enhance.reduce tokLen B g partials = joinSp partials)
    ∧ (∀ s, B < tokLen (joinSp partials) → g (joinSp partials) = some s →
        Enhance.reduce tokLen B g partials = stripL s) := by
  refine ⟨?_, ?_, ?_, ?_, ?_, ?_⟩
  · intro h
    unfold Fast.reduce
    rw [h]
  · intro ids h hle
    unfold Fast.reduce
    rw [h]
    simp only [if_neg (by omega : ¬ 900 < ids.length)]
  · intro ids h hgt
    unfold Fast.reduce
    rw [h]
    simp only [if_pos hgt]
  · intro h
    unfold Enhance.reduce
    rw [if_neg (not_lt.mpr h)]
  · intro h hg
    unfold Enhance.reduce
    rw [if_pos h, hg]
  · intro s h hg
    unfold Enhance.reduce
    rw [if_pos h, hg]

/-- Each successful future's summary, collected in completion order and then
restricted to the canonical order, is the in-index-order list of successes. -/
theorem collect_range (results : List (Option Str)) :
    Fast.collect_partials results (List.range results.length)
      = results.filterMap id := by
  unfold Fast.collect_partials
  induction results with
  | nil => rfl
  | cons r t ih =>
    rw [List.length_cons, List.range_succ_eq_map, List.filterMap_cons,
      List.filterMap_map]
    have hcomp : ((fun i => (r :: t).getD i none) ∘ Nat.succ)
        = (fun i => t.getD i none) := by
      funext i
      simp
    rw [hcomp]
    cases r with
    | none => simpa using ih
    | some s => simpa using ih

/-- C7.  The claim as frozen is false: `fast_summarize_text` appends partial
summaries as futures complete (`as_completed`), never sorting by the chunk
index carried in each result, so two completion orders of the same per-chunk
results produce differently ordered (hence different) combined summaries. -/
theorem C7_counterexample :
    [1, 0].Perm (List.range 2)
    ∧ Fast.collect_partials [some ['a'], some ['b']] [1, 0]
        ≠ Fast.collect_partials [some ['a'], some ['b']] (List.range 2)
    ∧ joinSp (Fast.collect_partials [some ['a'], some ['b']] [1, 0])
        ≠ joinSp (Fast.collect_partials [some ['a'], some ['b']] (List.range 2)) := by
  decide

/-- C7 (amended).  The combined summary joins the partial summaries in worker
completion order, not chunk-index order; what is invariant across completion
orders is the multiset of collected partials, and a completion order equal to
the submission order yields exactly the successes in chunk-index order. -/
theorem C7_completion_order (results : List (Option Str)) (order : List ℕ)
    (h : order.Perm (List.range results.length)) :
    (Fast.collect_partials results order).Perm (results.filterMap id)
    ∧ Fast.collect_partials results (List.range results.length)
        = results.filterMap id := by
  refine ⟨?_, collect_range results⟩
  have hp := h.filterMap (fun i => results.getD i none)
  have h2 := collect_range results
  unfold Fast.collect_partials at h2 ⊢
  rw [h2] at hp
  exact hp

/-- C7 witness: three chunk results, one failed, completing out of order. -/
theorem C7_completion_order_witness :
    (Fast.collect_partials [some ['a'], none, some ['b']] [2, 0, 1]).Perm
        ([some ['a'], none, some ['b']].filterMap id)
    ∧ Fast.collect_partials [some ['a'], none, some ['b']]
        (List.range [some ['a'], none, some ['b']].length)
      = [some ['a'], none, some ['b']].filterMap id :=
  C7_completion_order [some ['a'], none, some ['b']] [2, 0, 1] (by decide)

theorem mem_stripL {c : Char} {l : Str} (h : c ∈ stripL l) : c ∈ l := by
  unfold stripL at h
  have h1 := List.mem_reverse.mp h
  have h2 := (List.dropWhile_suffix isWS).sublist.mem h1
  have h3 := List.mem_reverse.mp h2
  exact (List.dropWhile_suffix isWS).sublist.mem h3

/-- Membership in the shared `[s.strip() for s in pieces if s.strip()]`
pattern: every kept element is a non-empty, strip-invariant strip of some
piece. -/
theorem stripKeep_mem {L : List Str} {s : Str}
    (h : s ∈ L.filterMap (fun x => if (stripL x).isEmpty then none else some (stripL x))) :
    (s ≠ [] ∧ stripL s = s) ∧ ∃ x ∈ L, s = stripL x := by
  obtain ⟨x, hx, heq⟩ := List.mem_filterMap.mp h
  by_cases hxe : (stripL x).isEmpty
  · simp [hxe] at heq
  · rw [if_neg hxe] at heq
    have hsx : stripL x = s := by simpa using heq
    subst hsx
    exact ⟨⟨by simpa using hxe, stripL_idem x⟩, x, hx, rfl⟩

/-- No piece of the CJK splitter contains a full-width sentence mark: the
marks are the cut points and are discarded. -/
theorem splitCJKAux_no_punct (l : Str) : ∀ (acc : Str),
    (∀ c ∈ acc, isCJKPunct c = false) →
    ∀ s ∈ Chinese.splitCJKAux l acc, ∀ c ∈ s, isCJKPunct c = false := by
  induction l with
  | nil =>
    intro acc hacc s hs c hc
    simp only [Chinese.splitCJKAux, List.mem_singleton] at hs
    subst hs
    exact hacc c (List.mem_reverse.mp hc)
  | cons d rest ih =>
    intro acc hacc s hs c hc
    by_cases hd : isCJKPunct d = true
    · rw [show Chinese.splitCJKAux (d :: rest) acc
          = acc.reverse :: Chinese.splitCJKAux rest [] by
        simp [Chinese.splitCJKAux, hd]] at hs
      rcases List.mem_cons.mp hs with hs | hs
      · subst hs
        exact hacc c (List.mem_reverse.mp hc)
      · exact ih [] (by intro x hx; simp at hx) s hs c hc
    · rw [show Chinese.splitCJKAux (d :: rest) acc
          = Chinese.splitCJKAux rest (d :: acc) by
        simp [Chinese.splitCJKAux, hd]] at hs
      refine ih (d :: acc) ?_ s hs c hc
      intro x hx
      rcases List.mem_cons.mp hx with hx | hx
      · subst hx
        simpa using hd
      · exact hacc x hx

/-- C8.  Both sentence splitters return only whitespace-trimmed non-empty
strings (empty fragments between consecutive marks are dropped), the CJK
splitter discards the full-width marks `。！？` rather than retaining them,
and blank input yields an empty sequence. -/
theorem C8_sentence_splitter (text : Str) :
    (∀ s ∈ Enhance.split_sentences text, s ≠ [] ∧ stripL s = s)
    ∧ (∀ s ∈ Chinese.split_chinese_sentences text,
        (s ≠ [] ∧ stripL s = s) ∧ ∀ c ∈ s, isCJKPunct c = false)
    ∧ (stripL text = [] →
        Enhance.split_sentences text = [] ∧ Chinese.split_chinese_sentences text = []) := by
  refine ⟨?_, ?_, ?_⟩
  · intro s hs
    unfold Enhance.split_sentences at hs
    by_cases h : (stripL text).isEmpty
    · rw [if_pos h] at hs
      simp at hs
    · rw [if_neg h] at hs
      exact (stripKeep_mem hs).1
  · intro s hs
    unfold Chinese.split_chinese_sentences at hs
    by_cases h : (stripL text).isEmpty
    · rw [if_pos h] at hs
      simp at hs
    · rw [if_neg h] at hs
      obtain ⟨h1, x, hx, hsx⟩ := stripKeep_mem hs
      refine ⟨h1, ?_⟩
      intro c hc
      refine splitCJKAux_no_punct (stripL text) [] (by intro y hy; simp at hy) x hx c ?_
      rw [hsx] at hc
      exact mem_stripL hc
  · intro h
    constructor
    · unfold Enhance.split_sentences
      rw [if_pos (by simpa using h)]
    · unfold Chinese.split_chinese_sentences
      rw [if_pos (by simpa using h)]

namespace Performance

theorem windowSlicesGo_flatten (B : ℕ) (hB : 1 ≤ B) : ∀ (fuel : ℕ) (ids : List ℕ),
    ids.length ≤ fuel → (windowSlicesGo B fuel ids).flatten = ids := by
  intro fuel
  induction fuel with
  | zero =>
    intro ids h
    have : ids = [] := List.eq_nil_of_length_eq_zero (by omega)
    subst this
    rfl
  | succ f ih =>
    intro ids h
    cases ids with
    | nil => rfl
    | cons c rest =>
      rw [show windowSlicesGo B (f + 1) (c :: rest)
          = (c :: rest).take B :: windowSlicesGo B f ((c :: rest).drop B) from rfl,
        List.flatten_cons, ih _ (by
          simp only [List.length_drop, List.length_cons]
          simp only [List.length_cons] at h
          omega)]
      exact List.take_append_drop B (c :: rest)

theorem windowSlicesGo_spec (B : ℕ) (hB : 1 ≤ B) : ∀ (fuel : ℕ) (ids : List ℕ),
    ids.length ≤ fuel →
    (∀ w ∈ (windowSlicesGo B fuel ids).dropLast, w.length = B)
    ∧ (∀ w ∈ windowSlicesGo B fuel ids, w ≠ [] ∧ w.length ≤ B) := by
  intro fuel
  induction fuel with
  | zero =>
    intro ids h
    have : ids = [] := List.eq_nil_of_length_eq_zero (by omega)
    subst this
    exact ⟨by intro w hw; simp [windowSlicesGo] at hw,
      by intro w hw; simp [windowSlicesGo] at hw⟩
  | succ f ih =>
    intro ids h
    cases ids with
    | nil =>
      exact ⟨by intro w hw; simp [windowSlicesGo] at hw,
        by intro w hw; simp [windowSlicesGo] at hw⟩
    | cons c rest =>
      have hstep : windowSlicesGo B (f + 1) (c :: rest)
          = (c :: rest).take B :: windowSlicesGo B f ((c :: rest).drop B) := rfl
      have hdrople : ((c :: rest).drop B).length ≤ f := by
        simp only [List.length_drop, List.length_cons]
        simp only [List.length_cons] at h
        omega
      obtain ⟨ih1, ih2⟩ := ih _ hdrople
      constructor
      · intro w hw
        rw [hstep] at hw
        by_cases hd : (c :: rest).drop B = []
        · rw [hd] at hw
          rw [show windowSlicesGo B f [] = [] by cases f <;> rfl] at hw
          simp at hw
        · have htne : windowSlicesGo B f ((c :: rest).drop B) ≠ [] := by
            cases hf : f with
            | zero =>
              rw [hf] at hdrople
              exact absurd (List.eq_nil_of_length_eq_zero (by omega)) hd
            | succ f2 =>
              cases hdl : (c :: rest).drop B with
              | nil => exact absurd hdl hd
              | cons d t2 => simp [windowSlicesGo]
          cases hGo : windowSlicesGo B f ((c :: rest).drop B) with
          | nil => exact absurd hGo htne
          | cons w1 ws1 =>
            rw [hGo] at hw
            simp only [List.dropLast, List.mem_cons] at hw
            rcases hw with hw | hw
            · subst hw
              have hlen : B < (c :: rest).length := by
                by_contra hle
                exact hd (List.drop_eq_nil_of_le (by omega))
              simp only [List.length_take, List.length_cons] at hlen ⊢
              omega
            · refine ih1 w ?_
              rw [hGo]
              cases ws1 with
              | nil => simp at hw
              | cons w2 ws2 => simpa using hw
      · intro w hw
        rw [hstep] at hw
        rcases List.mem_cons.mp hw with hw | hw
        · subst hw
          constructor
          · cases hBv : B with
            | zero => omega
            | succ b => simp
          · simp [List.length_take]
        · exact ih2 w hw

theorem windowSlices_flatten (B : ℕ) (ids : List ℕ) (hB : 1 ≤ B) :
    (windowSlices B ids).flatten = ids :=
  windowSlicesGo_flatten B hB ids.length ids le_rfl

theorem windowSlices_spec (B : ℕ) (ids : List ℕ) (hB : 1 ≤ B) :
    (∀ w ∈ (windowSlices B ids).dropLast, w.length = B)
    ∧ (∀ w ∈ windowSlices B ids, w ≠ [] ∧ w.length ≤ B) :=
  windowSlicesGo_spec B hB ids.length ids le_rfl

end Performance

/-- C9.  In raw token-window slicing mode, `optimize_text_chunking` encodes the
whole text once and slices the id sequence into contiguous windows of exactly
`max_tokens` ids (only the last window may be shorter, and no window is
empty), decoding each window with special tokens skipped and keeping the
non-blank stripped decodes; blank input or zero token ids yield the empty
chunk list rather than an error. -/
theorem C9_raw_token_window (tok : Tokenizer) (text : Str) (B : ℕ) :
    (stripL text = [] → Performance.optimize_text_chunking tok text B = [])
    ∧ (tok.encode text = some [] → Performance.optimize_text_chunking tok text B = [])
    ∧ (∀ ids, 1 ≤ B → tok.encode text = some ids → stripL text ≠ [] → ids ≠ [] →
        Performance.optimize_text_chunking tok text B
            = ((Performance.windowSlices B ids).map (fun w => stripL (tok.decode w))).filter
                (fun c => !c.isEmpty)
          ∧ (Performance.windowSlices B ids).flatten = ids
          ∧ (∀ w ∈ (Performance.windowSlices B ids).dropLast, w.length = B)
          ∧ (∀ w ∈ Performance.windowSlices B ids, w ≠ [] ∧ w.length ≤ B)) := by
  refine ⟨?_, ?_, ?_⟩
  · intro h
    unfold Performance.optimize_text_chunking
    rw [if_pos (by simpa using h)]
  · intro h
    unfold Performance.optimize_text_chunking
    by_cases hs : (stripL text).isEmpty
    · rw [if_pos hs]
    · rw [if_neg hs, h]
      simp
  · intro ids hB henc hstrip hids
    obtain ⟨hw1, hw2⟩ := Performance.windowSlices_spec B ids hB
    refine ⟨?_, Performance.windowSlices_flatten B ids hB, hw1, hw2⟩
    unfold Performance.optimize_text_chunking
    rw [if_neg (by simpa using hstrip), henc]
    simp only [Option.elim]
    rw [if_neg (by simpa using hids), if_neg (by omega)]

theorem word_strip_ne_nil (w : Str) (h1 : w ≠ []) (h2 : ∀ c ∈ w, isWS c = false) :
    stripL w ≠ [] := by
  intro hc
  have hall := (stripL_eq_nil_iff w).mp hc
  cases w with
  | nil => exact h1 rfl
  | cons c t =>
    have := hall c (by simp)
    have h2c := h2 c (by simp)
    rw [h2c] at this
    exact Bool.false_ne_true this

/-- Every piece of `str.split()` is a non-empty whitespace-free word. -/
theorem splitWSAux_words (l : Str) : ∀ (acc : Str),
    (∀ c ∈ acc, isWS c = false) →
    ∀ w ∈ splitWSAux l acc, w ≠ [] ∧ ∀ c ∈ w, isWS c = false := by
  induction l with
  | nil =>
    intro acc hacc w hw
    by_cases h : acc.isEmpty
    · simp [splitWSAux, h] at hw
    · rw [show splitWSAux [] acc = [acc.reverse] by simp [splitWSAux, h]] at hw
      rw [List.mem_singleton] at hw
      subst hw
      exact ⟨by simpa using h, fun c hc => hacc c (List.mem_reverse.mp hc)⟩
  | cons c rest ih =>
    intro acc hacc w hw
    by_cases hc : isWS c = true
    · by_cases h0 : acc.isEmpty
      · rw [show splitWSAux (c :: rest) acc = splitWSAux rest [] by
          simp [splitWSAux, hc, h0]] at hw
        exact ih [] (by intro x hx; simp at hx) w hw
      · rw [show splitWSAux (c :: rest) acc = acc.reverse :: splitWSAux rest [] by
          simp [splitWSAux, hc, h0]] at hw
        rcases List.mem_cons.mp hw with hw | hw
        · subst hw
          exact ⟨by simpa using h0, fun x hx => hacc x (List.mem_reverse.mp hx)⟩
        · exact ih [] (by intro x hx; simp at hx) w hw
    · rw [show splitWSAux (c :: rest) acc = splitWSAux rest (c :: acc) by
        simp [splitWSAux, hc]] at hw
      refine ih (c :: acc) ?_ w hw
      intro x hx
      rcases List.mem_cons.mp hx with hx | hx
      · subst hx
        simpa using hc
      · exact hacc x hx

/-- Every chunk the word-based fallback loop emits strips to something
non-empty. -/
theorem wordFallbackLoop_strip (B : ℕ) (ws : List Str) : ∀ (cur : List Str) (n : ℕ),
    (∀ w ∈ ws, w ≠ [] ∧ ∀ c ∈ w, isWS c = false) →
    (∀ w ∈ cur, w ≠ [] ∧ ∀ c ∈ w, isWS c = false) →
    ∀ ch ∈ Performance.wordFallbackLoop B ws cur n, stripL ch ≠ [] := by
  induction ws with
  | nil =>
    intro cur n hws hcur ch hch
    by_cases h : cur.isEmpty
    · simp [Performance.wordFallbackLoop, h] at hch
    · rw [show Performance.wordFallbackLoop B [] cur n = [joinSp cur] by
        simp [Performance.wordFallbackLoop, h]] at hch
      rw [List.mem_singleton] at hch
      subst hch
      refine joinSp_strip_ne_nil cur (by simpa using h) ?_
      intro p hp
      exact word_strip_ne_nil p (hcur p hp).1 (hcur p hp).2
  | cons w ws' ih =>
    intro cur n hws hcur ch hch
    have hw := hws w (by simp)
    have hws' : ∀ x ∈ ws', x ≠ [] ∧ ∀ c ∈ x, isWS c = false :=
      fun x hx => hws x (List.mem_cons_of_mem w hx)
    by_cases h1 : B * 4 < n + (w.length + 1)
    · by_cases h2 : cur.isEmpty
      · rw [show Performance.wordFallbackLoop B (w :: ws') cur n
            = w :: Performance.wordFallbackLoop B ws' cur n by
          simp [Performance.wordFallbackLoop, h1, h2]] at hch
        rcases List.mem_cons.mp hch with hch | hch
        · rw [hch]
          exact word_strip_ne_nil w hw.1 hw.2
        · exact ih cur n hws' hcur ch hch
      · rw [show Performance.wordFallbackLoop B (w :: ws') cur n
            = joinSp cur :: Performance.wordFallbackLoop B ws' [w] (w.length + 1) by
          simp [Performance.wordFallbackLoop, h1, h2]] at hch
        rcases List.mem_cons.mp hch with hch | hch
        · subst hch
          refine joinSp_strip_ne_nil cur (by simpa using h2) ?_
          intro p hp
          exact word_strip_ne_nil p (hcur p hp).1 (hcur p hp).2
        · refine ih [w] (w.length + 1) hws' ?_ ch hch
          intro x hx
          rw [List.mem_singleton] at hx
          subst hx
          exact hw
    · rw [show Performance.wordFallbackLoop B (w :: ws') cur n
          = Performance.wordFallbackLoop B ws' (cur ++ [w]) (n + (w.length + 1)) by
        simp [Performance.wordFallbackLoop, h1]] at hch
      refine ih (cur ++ [w]) (n + (w.length + 1)) hws' ?_ ch hch
      intro x hx
      rcases List.mem_append.mp hx with hx | hx
      · exact hcur x hx
      · rw [List.mem_singleton] at hx
        subst hx
        exact hw

/-- C10.  `optimize_text_chunking` returns for every input — a tokenizer whose
`encode` raises is absorbed by the word-based fallback rather than propagated —
and every returned chunk is non-empty after stripping whitespace. -/
theorem C10_total_nonblank (tok : Tokenizer) (text : Str) (B : ℕ) :
    (∀ c ∈ Performance.optimize_text_chunking tok text B, stripL c ≠ [])
    ∧ (tok.encode text = none → stripL text ≠ [] →
        Performance.optimize_text_chunking tok text B
          = Performance.word_fallback text B) := by
  have hfb : ∀ ch ∈ Performance.word_fallback text B, stripL ch ≠ [] := by
    intro ch hch
    refine wordFallbackLoop_strip B (splitWS text) [] 0
      (splitWSAux_words text [] (by intro x hx; simp at hx))
      (by intro x hx; simp at hx) ch hch
  constructor
  · intro c hc
    unfold Performance.optimize_text_chunking at hc
    by_cases hs : (stripL text).isEmpty
    · rw [if_pos hs] at hc
      simp at hc
    · rw [if_neg hs] at hc
      cases henc : tok.encode text with
      | none =>
        rw [henc] at hc
        simp only [Option.elim] at hc
        exact hfb c hc
      | some ids =>
        rw [henc] at hc
        simp only [Option.elim] at hc
        by_cases hids : ids.isEmpty
        · rw [if_pos hids] at hc
          simp at hc
        · rw [if_neg hids] at hc
          by_cases hB : B = 0
          · rw [if_pos hB] at hc
            exact hfb c hc
          · rw [if_neg hB] at hc
            obtain ⟨hmem, hkeep⟩ := List.mem_filter.mp hc
            obtain ⟨w, hwmem, hweq⟩ := List.mem_map.mp hmem
            rw [← hweq, stripL_idem]
            rw [← hweq] at hkeep
            simpa using hkeep
  · intro henc hstrip
    unfold Performance.optimize_text_chunking
    rw [if_neg (by simpa using hstrip), henc]
    rfl
